import Mathlib

/-!
Verification of the opencc-jieba-rs conversion core.

Strings are modelled as lists of Unicode scalar values (`List Char`);
byte positions are computed with `Char.utf8Size`, so every byte index
that the Rust code manipulates is reproduced exactly.  Rust `HashMap`
tables are modelled as association lists with key-replacing insertion;
the external Jieba segmenter is an abstract tokenizer parameter.
-/

namespace OpenccJieba

/-- Byte length of a string, the Lean counterpart of Rust `str::len`. -/
def byteLen : List Char → Nat
  | [] => 0
  | c :: cs => c.utf8Size + byteLen cs

/-- The fixed delimiter set `DELIMITER_SET` from `lib.rs`.  The ASCII
apostrophe, the two ASCII braces and the four curly quotes are appended
through `Char.ofNat` codepoints; set membership is all that matters. -/
def delimiterList : List Char :=
  (" \t\n\r!\"#$%&()*+,-./:;<=>?@[\\]^_|~＝、。『』「」﹁﹂—－（）《》〈〉？！…／＼︒︑︔︓︿﹀︹︺︙︐［﹇］﹈︕︖︰︳︴︽︾︵︶｛︷｝︸﹃﹄【︻】︼　～．，；：".toList)
    ++ [Char.ofNat 0x27, Char.ofNat 0x7b, Char.ofNat 0x7d,
        Char.ofNat 0x201c, Char.ofNat 0x201d, Char.ofNat 0x2018, Char.ofNat 0x2019]

/-- Membership test in the delimiter set. -/
def isDelim (c : Char) : Bool :=
  delimiterList.contains c

/-- Half-open byte interval into the input string, the counterpart of
Rust `Range<usize>` as used by `split_string_ranges`. -/
structure SRange where
  start : Nat
  stop : Nat
deriving DecidableEq

/-- Recursive core of `split_string_ranges`: walks the remaining scalars
carrying the byte index of the current scalar and the byte index where the
current segment starts; at the end the trailing segment is emitted when it
is non-empty, exactly as the Rust loop followed by its trailing push. -/
def splitRangesAux (inclusive : Bool) : List Char → Nat → Nat → List SRange
  | [], byteIdx, segStart =>
    if segStart < byteIdx then [⟨segStart, byteIdx⟩] else []
  | ch :: rest, byteIdx, segStart =>
    if isDelim ch then
      let chEnd := byteIdx + ch.utf8Size
      if inclusive then
        ⟨segStart, chEnd⟩ :: splitRangesAux inclusive rest chEnd chEnd
      else if segStart < byteIdx then
        ⟨segStart, byteIdx⟩ :: ⟨byteIdx, chEnd⟩ :: splitRangesAux inclusive rest chEnd chEnd
      else
        ⟨byteIdx, chEnd⟩ :: splitRangesAux inclusive rest chEnd chEnd
    else
      splitRangesAux inclusive rest (byteIdx + ch.utf8Size) segStart

/-- `OpenCC::split_string_ranges` from `lib.rs`: split the text into
byte ranges at the delimiter set, inclusively or exclusively. -/
def split_string_ranges (text : List Char) (inclusive : Bool) : List SRange :=
  splitRangesAux inclusive text 0 0

/-- One step of the specification scan of section 4.4: state is the emitted
ranges so far, the byte index of the scalar being examined and the byte
index where the current segment starts. -/
def splitSpecStep (inclusive : Bool) (st : List SRange × Nat × Nat) (ch : Char) :
    List SRange × Nat × Nat :=
  let rs := st.1
  let s := st.2.1
  let segStart := st.2.2
  if isDelim ch then
    let chEnd := s + ch.utf8Size
    if inclusive then
      (rs ++ [⟨segStart, chEnd⟩], chEnd, chEnd)
    else
      (rs ++ (if segStart < s then [⟨segStart, s⟩] else []) ++ [⟨s, chEnd⟩], chEnd, chEnd)
  else
    (rs, s + ch.utf8Size, segStart)

/-- Splitter modelled from the words of section 4.4 of the specification:
a left-to-right fold over the scalars, followed by the trailing range
`[segment_start, text.len())` exactly when `segment_start < text.len()`. -/
def splitSpec (text : List Char) (inclusive : Bool) : List SRange :=
  let st := text.foldl (splitSpecStep inclusive) ([], 0, 0)
  st.1 ++ (if st.2.2 < byteLen text then [⟨st.2.2, byteLen text⟩] else [])

/-- Longest prefix whose byte length stays within the budget; this is the
scalar-level rendering of slicing a string prefix at a byte boundary. -/
def takeBytes : List Char → Nat → List Char
  | [], _ => []
  | c :: cs, n => if c.utf8Size ≤ n then c :: takeBytes cs (n - c.utf8Size) else []

/-- Drop a byte-boundary prefix of the given byte length. -/
def dropBytes : List Char → Nat → List Char
  | [], _ => []
  | c :: cs, n => if n = 0 then c :: cs else dropBytes cs (n - c.utf8Size)

/-- Scalar-level rendering of the byte-range slice `input[range]`. -/
def byteSlice (s : List Char) (r : SRange) : List Char :=
  takeBytes (dropBytes s r.start) (r.stop - r.start)

/-- A byte index sits on a UTF-8 scalar boundary of the text. -/
def isBoundaryAt (text : List Char) (n : Nat) : Prop :=
  ∃ k, k ≤ text.length ∧ n = byteLen (text.take k)

/-- Association-list model of one Rust `HashMap<String, String>` table:
keys are unique, lookup scans for the key. -/
abbrev Dict := List (List Char × List Char)

/-- Lookup in one dictionary table, the model of `HashMap::get`. -/
def dictGet : Dict → List Char → Option (List Char)
  | [], _ => none
  | (k, v) :: rest, key => if k = key then some v else dictGet rest key

/-- First hit across the ordered dictionary list: the precedence loop shared
by `phrases_cut_convert` and `convert_by_char`. -/
def firstMatch : List Dict → List Char → Option (List Char)
  | [], _ => none
  | d :: rest, key =>
    match dictGet d key with
    | some v => some v
    | none => firstMatch rest key

/-- Replacement emitted for one scalar by the character fallback: the first
dictionary hit on the single-scalar key, or the original scalar. -/
def charReplace (dictionaries : List Dict) (ch : Char) : List Char :=
  match firstMatch dictionaries [ch] with
  | some v => v
  | none => [ch]

/-- `OpenCC::convert_by_char`: per-scalar conversion of a token, searching
the ordered dictionary list for each scalar and keeping the scalar when no
dictionary maps it. -/
def convert_by_char (s : List Char) (dictionaries : List Dict) : List Char :=
  (s.map (charReplace dictionaries)).flatten

/-- Delimiter fast path test of the token loop: exactly one Unicode scalar
and that scalar belongs to the delimiter set. -/
def isSingleDelim : List Char → Bool
  | [c] => isDelim c
  | _ => false

/-- Emission of the token loop of `phrases_cut_convert` for one segmenter
token: empty tokens emit nothing, single-scalar delimiters pass through
verbatim, then dictionaries are consulted in precedence order, and failing
all of that the character fallback runs. -/
def processToken (dictionaries : List Dict) (phrase : List Char) : List Char :=
  if phrase = [] then []
  else if isSingleDelim phrase then phrase
  else
    match firstMatch dictionaries phrase with
    | some v => v
    | none => convert_by_char phrase dictionaries

/-- The segmenter contract consumed by the core: cut a chunk into tokens,
with an HMM flag; the Jieba implementation is an external collaborator. -/
abbrev Segmenter := List Char → Bool → List (List Char)

/-- The `process_range` closure of `phrases_cut_convert`: slice the range
out of the input, tokenize it, and append each token emission to the
output buffer. -/
def process_range (cut : Segmenter) (input : List Char) (dictionaries : List Dict)
    (hmm : Bool) (r : SRange) : List Char :=
  (cut (byteSlice input r) hmm).foldl
    (fun out phrase => out ++ processToken dictionaries phrase) []

/-- `OpenCC::phrases_cut_convert`, serial branch: process the inclusive
delimiter ranges left to right, appending each processed fragment. -/
def phrases_cut_convert (cut : Segmenter) (input : List Char)
    (dictionaries : List Dict) (hmm : Bool) : List Char :=
  (split_string_ranges input true).foldl
    (fun out r => out ++ process_range cut input dictionaries hmm r) []

/-- The parallel branch of `phrases_cut_convert`, modelled over an arbitrary
contiguous partition of the range list into blocks: each block is processed
independently and the per-block outputs are reduce-concatenated in index
order, which is what the indexed parallel iterator with ordered reduction
computes for any work split. -/
def phrases_cut_convert_par (cut : Segmenter) (input : List Char)
    (dictionaries : List Dict) (hmm : Bool) (blocks : List (List SRange)) : List Char :=
  (blocks.map (fun blk =>
      blk.foldl (fun out r => out ++ process_range cut input dictionaries hmm r) [])).foldl
    (fun a b => a ++ b) []

/-- The bundle of the sixteen runtime conversion tables of `Dictionary`,
as consumed by the conversion methods in `lib.rs`. -/
structure Dictionary where
  st_characters : Dict
  st_phrases : Dict
  ts_characters : Dict
  ts_phrases : Dict
  tw_phrases : Dict
  tw_phrases_rev : Dict
  tw_variants : Dict
  tw_variants_rev : Dict
  tw_variants_rev_phrases : Dict
  hk_variants : Dict
  hk_variants_rev : Dict
  hk_variants_rev_phrases : Dict
  jps_characters : Dict
  jps_phrases : Dict
  jp_variants : Dict
  jp_variants_rev : Dict

/-- The `S2T_MAP` table: curly quotes to corner brackets. -/
def s2tPairs : List (Char × Char) :=
  [(Char.ofNat 0x201c, Char.ofNat 0x300c), (Char.ofNat 0x201d, Char.ofNat 0x300d),
    (Char.ofNat 0x2018, Char.ofNat 0x300e), (Char.ofNat 0x2019, Char.ofNat 0x300f)]

/-- The `T2S_MAP` table: corner brackets to curly quotes. -/
def t2sPairs : List (Char × Char) :=
  [(Char.ofNat 0x300c, Char.ofNat 0x201c), (Char.ofNat 0x300d, Char.ofNat 0x201d),
    (Char.ofNat 0x300e, Char.ofNat 0x2018), (Char.ofNat 0x300f, Char.ofNat 0x2019)]

/-- Lookup in a character-to-character table. -/
def charMapGet : List (Char × Char) → Char → Option Char
  | [], _ => none
  | (k, v) :: rest, c => if k = c then some v else charMapGet rest c

/-- Test for `config.starts_with` on the letter s. -/
def startsWithS : List Char → Bool
  | c :: _ => c = 's'
  | [] => false

/-- `OpenCC::convert_punctuation`: the regex in the source matches exactly
the four source codepoints of the selected direction and replaces each
matched character through the mapping table, leaving everything else in
place, which at scalar level is this character-wise map. -/
def convert_punctuation (text : List Char) (config : List Char) : List Char :=
  let mapping := if startsWithS config then s2tPairs else t2sPairs
  text.map (fun ch => (charMapGet mapping ch).getD ch)

/-- `OpenCC::s2t`. -/
def s2t (cut : Segmenter) (d : Dictionary) (input : List Char)
    (punctuation : Bool) : List Char :=
  let result := phrases_cut_convert cut input [d.st_phrases, d.st_characters] true
  if punctuation then convert_punctuation result ("s".toList) else result

/-- `OpenCC::t2s`. -/
def t2s (cut : Segmenter) (d : Dictionary) (input : List Char)
    (punctuation : Bool) : List Char :=
  let result := phrases_cut_convert cut input [d.ts_phrases, d.ts_characters] true
  if punctuation then convert_punctuation result ("t".toList) else result

/-- `OpenCC::s2tw`. -/
def s2tw (cut : Segmenter) (d : Dictionary) (input : List Char)
    (punctuation : Bool) : List Char :=
  let result := phrases_cut_convert cut
    (phrases_cut_convert cut input [d.st_phrases, d.st_characters] true)
    [d.tw_variants] true
  if punctuation then convert_punctuation result ("s".toList) else result

/-- `OpenCC::tw2s`. -/
def tw2s (cut : Segmenter) (d : Dictionary) (input : List Char)
    (punctuation : Bool) : List Char :=
  let result := phrases_cut_convert cut
    (phrases_cut_convert cut input [d.tw_variants_rev, d.tw_variants_rev_phrases] true)
    [d.ts_phrases, d.ts_characters] true
  if punctuation then convert_punctuation result ("t".toList) else result

/-- `OpenCC::s2twp`. -/
def s2twp (cut : Segmenter) (d : Dictionary) (input : List Char)
    (punctuation : Bool) : List Char :=
  let result := phrases_cut_convert cut
    (phrases_cut_convert cut
      (phrases_cut_convert cut input [d.st_phrases, d.st_characters] true)
      [d.tw_phrases] true)
    [d.tw_variants] true
  if punctuation then convert_punctuation result ("s".toList) else result

/-- `OpenCC::tw2sp`. -/
def tw2sp (cut : Segmenter) (d : Dictionary) (input : List Char)
    (punctuation : Bool) : List Char :=
  let result := phrases_cut_convert cut
    (phrases_cut_convert cut
      (phrases_cut_convert cut input [d.tw_variants_rev, d.tw_variants_rev_phrases] true)
      [d.tw_phrases_rev] true)
    [d.ts_phrases, d.ts_characters] true
  if punctuation then convert_punctuation result ("t".toList) else result

/-- `OpenCC::s2hk`. -/
def s2hk (cut : Segmenter) (d : Dictionary) (input : List Char)
    (punctuation : Bool) : List Char :=
  let result := phrases_cut_convert cut
    (phrases_cut_convert cut input [d.st_phrases, d.st_characters] true)
    [d.hk_variants] true
  if punctuation then convert_punctuation result ("s".toList) else result

/-- `OpenCC::hk2s`. -/
def hk2s (cut : Segmenter) (d : Dictionary) (input : List Char)
    (punctuation : Bool) : List Char :=
  let result := phrases_cut_convert cut
    (phrases_cut_convert cut input [d.hk_variants_rev_phrases, d.hk_variants_rev] true)
    [d.ts_phrases, d.ts_characters] true
  if punctuation then convert_punctuation result ("t".toList) else result

/-- `OpenCC::t2tw`. -/
def t2tw (cut : Segmenter) (d : Dictionary) (input : List Char) : List Char :=
  phrases_cut_convert cut input [d.tw_variants] true

/-- `OpenCC::t2twp`. -/
def t2twp (cut : Segmenter) (d : Dictionary) (input : List Char) : List Char :=
  phrases_cut_convert cut
    (phrases_cut_convert cut input [d.tw_phrases] true)
    [d.tw_variants] true

/-- `OpenCC::tw2t`. -/
def tw2t (cut : Segmenter) (d : Dictionary) (input : List Char) : List Char :=
  phrases_cut_convert cut input [d.tw_variants_rev, d.tw_variants_rev_phrases] true

/-- `OpenCC::tw2tp`. -/
def tw2tp (cut : Segmenter) (d : Dictionary) (input : List Char) : List Char :=
  phrases_cut_convert cut
    (phrases_cut_convert cut input [d.tw_variants_rev, d.tw_variants_rev_phrases] true)
    [d.tw_phrases_rev] true

/-- `OpenCC::t2hk`. -/
def t2hk (cut : Segmenter) (d : Dictionary) (input : List Char) : List Char :=
  phrases_cut_convert cut input [d.hk_variants] true

/-- `OpenCC::hk2t`. -/
def hk2t (cut : Segmenter) (d : Dictionary) (input : List Char) : List Char :=
  phrases_cut_convert cut input [d.hk_variants_rev_phrases, d.hk_variants_rev] true

/-- `OpenCC::t2jp`. -/
def t2jp (cut : Segmenter) (d : Dictionary) (input : List Char) : List Char :=
  phrases_cut_convert cut input [d.jp_variants] true

/-- `OpenCC::jp2t`. -/
def jp2t (cut : Segmenter) (d : Dictionary) (input : List Char) : List Char :=
  phrases_cut_convert cut input [d.jps_phrases, d.jps_characters, d.jp_variants_rev] true

/-- `OpenCC::st`: character-only Simplified to Traditional conversion. -/
def st (d : Dictionary) (input : List Char) : List Char :=
  convert_by_char input [d.st_characters]

/-- `OpenCC::ts`: character-only Traditional to Simplified conversion. -/
def ts (d : Dictionary) (input : List Char) : List Char :=
  convert_by_char input [d.ts_characters]

/-- Pass composition modelled from the words of section 4.9 of the
specification: apply the phrase-first converter once per listed stack, with
hmm true, feeding the output of pass n into pass n plus one. -/
def applyPasses (cut : Segmenter) (passes : List (List Dict)) (input : List Char) : List Char :=
  passes.foldl (fun acc stack => phrases_cut_convert cut acc stack true) input

/-- The four source codepoints of the selected punctuation direction:
curly quotes when mapping Simplified to Traditional, corner brackets in
the other direction. -/
def punctSources (simpToTrad : Bool) : List Char :=
  if simpToTrad then
    [Char.ofNat 0x201c, Char.ofNat 0x201d, Char.ofNat 0x2018, Char.ofNat 0x2019]
  else
    [Char.ofNat 0x300c, Char.ofNat 0x300d, Char.ofNat 0x300e, Char.ofNat 0x300f]

/-- Punctuation substitution for one scalar, modelled from the words of the
specification: the four paired quotation codepoints of the selected
direction are substituted and every other scalar is untouched. -/
def punctSpecChar (simpToTrad : Bool) (c : Char) : Char :=
  if simpToTrad then
    if c = Char.ofNat 0x201c then Char.ofNat 0x300c
    else if c = Char.ofNat 0x201d then Char.ofNat 0x300d
    else if c = Char.ofNat 0x2018 then Char.ofNat 0x300e
    else if c = Char.ofNat 0x2019 then Char.ofNat 0x300f
    else c
  else
    if c = Char.ofNat 0x300c then Char.ofNat 0x201c
    else if c = Char.ofNat 0x300d then Char.ofNat 0x201d
    else if c = Char.ofNat 0x300e then Char.ofNat 0x2018
    else if c = Char.ofNat 0x300f then Char.ofNat 0x2019
    else c

/-- Character class of the `STRIP_REGEX` pre-filter of `zho_check`: ASCII
punctuation ranges, ASCII control whitespace, space, digits, ASCII letters,
and the single CJK character at codepoint 0x8457. -/
def stripClass (c : Char) : Bool :=
  let n := c.toNat
  (0x21 ≤ n && n ≤ 0x2f) || (0x3a ≤ n && n ≤ 0x40) || (0x5b ≤ n && n ≤ 0x60) ||
    (0x7b ≤ n && n ≤ 0x7e) || (0x09 ≤ n && n ≤ 0x0d) || (n == 0x20) ||
    (0x30 ≤ n && n ≤ 0x39) || (0x41 ≤ n && n ≤ 0x5a) || (0x61 ≤ n && n ≤ 0x7a) ||
    (n == 0x8457)

/-- `find_max_utf8_length` from `lib.rs`: the byte length itself when it
fits the budget, otherwise the largest scalar-boundary byte count at most
the budget; the continuation-byte walk of the Rust code lands, on valid
UTF-8, exactly on the byte length of the longest scalar prefix within the
budget. -/
def find_max_utf8_length (sv : List Char) (max_byte_count : Nat) : Nat :=
  if byteLen sv ≤ max_byte_count then byteLen sv
  else byteLen (takeBytes sv max_byte_count)

/-- `OpenCC::zho_check`: classify the input as Traditional (1), Simplified
(2) or neither (0) by truncating to at most 1000 bytes at a scalar
boundary, stripping the pre-filter class, truncating to at most 200 bytes,
and comparing the remainder with its character-level conversions. -/
def zho_check (d : Dictionary) (input : List Char) : Int :=
  if input = [] then 0
  else
    let strip_text := (takeBytes input (find_max_utf8_length input 1000)).filter
      (fun c => !(stripClass c))
    let t := takeBytes strip_text (find_max_utf8_length strip_text 200)
    if t ≠ ts d t then 1
    else if t ≠ st d t then 2
    else 0

/-- Truncation modelled from the words of the specification: keep the
longest scalar prefix whose byte length does not exceed the budget. -/
def truncToBytes (s : List Char) (n : Nat) : List Char :=
  s.take (Nat.findGreatest (fun k => byteLen (s.take k) ≤ n) s.length)

/-- Variant detector modelled from the words of section 4.8 of the
specification: empty input is 0; otherwise truncate to 1000 bytes, strip,
truncate to 200 bytes, then return 1 when the Traditional-to-Simplified
character conversion changes the text, else 2 when the
Simplified-to-Traditional character conversion changes it, else 0. -/
def zhoCheckSpec (d : Dictionary) (input : List Char) : Int :=
  if input = [] then 0
  else
    let t := truncToBytes
      ((truncToBytes input 1000).filter (fun c => !(stripClass c))) 200
    if t ≠ convert_by_char t [d.ts_characters] then 1
    else if t ≠ convert_by_char t [d.st_characters] then 2
    else 0

/-- One OpenCC dictionary table with precomputed length metadata, the
embedding of `DictMap` from `dict_map.rs`; `u16` and `u64` fields are
carried as `Nat`, the shift `1 <<< (len - 1)` staying below `2 ^ 64`
whenever it is performed because it is guarded by `len ≤ 64`. -/
structure DictMap where
  map : List (List Char × List Char)
  min_len : Nat
  max_len : Nat
  key_len_mask : Nat
  long_lengths : List Nat

/-- `Default::default` for DictMap: everything empty or zero. -/
def DictMap.empty : DictMap :=
  ⟨[], 0, 0, 0, []⟩

/-- Key-replacing insertion, the model of `HashMap::insert`: the key set
afterwards is the old key set with the key added, and lookup of the key
yields the new value. -/
def mapInsert (m : List (List Char × List Char)) (key val : List Char) :
    List (List Char × List Char) :=
  (key, val) :: m.filter (fun p => decide (p.1 ≠ key))

/-- `HashSet::insert` on the model of a set of numbers. -/
def setInsert (l : List Nat) (n : Nat) : List Nat :=
  if l.contains n then l else n :: l

/-- `DictMap::insert_with_len`: update the length metadata when the length
is non-zero, then insert the pair into the map. -/
def DictMap.insert_with_len (d : DictMap) (key val : List Char)
    (len_chars : Nat) : DictMap :=
  let d1 :=
    if len_chars ≠ 0 then
      { d with
        key_len_mask :=
          if len_chars ≤ 64 then d.key_len_mask ||| (1 <<< (len_chars - 1))
          else d.key_len_mask,
        long_lengths :=
          if len_chars ≤ 64 then d.long_lengths
          else setInsert d.long_lengths len_chars,
        min_len :=
          if d.min_len = 0 ∨ len_chars < d.min_len then len_chars else d.min_len,
        max_len :=
          if d.max_len < len_chars then len_chars else d.max_len }
    else d
  { d1 with map := mapInsert d1.map key val }

/-- `DictMap::get`. -/
def DictMap.get (d : DictMap) (from_key : List Char) : Option (List Char) :=
  dictGet d.map from_key

/-- `DictMap::has_key_len`: false for zero, the bitmask for lengths up to
64, the long-length set beyond. -/
def DictMap.has_key_len (d : DictMap) (n : Nat) : Bool :=
  if n = 0 then false
  else if n ≤ 64 then (d.key_len_mask &&& (1 <<< (n - 1))) != 0
  else d.long_lengths.contains n

/-- A DictMap built by a sequence of insert_with_len calls in which the
declared length of each key is its scalar count. -/
def buildDictMap (inserts : List (List Char × List Char)) : DictMap :=
  inserts.foldl (fun d kv => d.insert_with_len kv.1 kv.2 kv.1.length) DictMap.empty

/-- The consistency invariant of the claim: the length oracle agrees with
the key set for every positive length. -/
def DictMapConsistent (d : DictMap) : Prop :=
  ∀ n, 1 ≤ n → (d.has_key_len n = true ↔ ∃ p ∈ d.map, p.1.length = n)

theorem splitSpecStep_decomp (inclusive : Bool) (st : List SRange × Nat × Nat) (ch : Char) :
    splitSpecStep inclusive st ch =
      (st.1 ++ (splitSpecStep inclusive ([], st.2) ch).1,
        (splitSpecStep inclusive ([], st.2) ch).2) := by
  unfold splitSpecStep
  by_cases hd : isDelim ch <;> by_cases hi : inclusive <;> simp [hd, hi]

theorem splitSpec_foldl_acc (inclusive : Bool) (cs : List Char)
    (st : List SRange × Nat × Nat) :
    cs.foldl (splitSpecStep inclusive) st =
      (st.1 ++ (cs.foldl (splitSpecStep inclusive) ([], st.2)).1,
        (cs.foldl (splitSpecStep inclusive) ([], st.2)).2) := by
  induction cs generalizing st with
  | nil => simp
  | cons c cs ih =>
    simp only [List.foldl_cons]
    rw [ih (splitSpecStep inclusive st c), ih (splitSpecStep inclusive ([], st.2) c),
      splitSpecStep_decomp inclusive st c]
    simp

theorem splitSpecStep_byteIdx (inclusive : Bool) (st : List SRange × Nat × Nat) (ch : Char) :
    (splitSpecStep inclusive st ch).2.1 = st.2.1 + ch.utf8Size := by
  unfold splitSpecStep
  by_cases hd : isDelim ch <;> by_cases hi : inclusive <;> simp [hd, hi]

theorem splitSpec_foldl_byteIdx (inclusive : Bool) (cs : List Char)
    (st : List SRange × Nat × Nat) :
    (cs.foldl (splitSpecStep inclusive) st).2.1 = st.2.1 + byteLen cs := by
  induction cs generalizing st with
  | nil => simp [byteLen]
  | cons c cs ih =>
    simp only [List.foldl_cons]
    rw [ih (splitSpecStep inclusive st c), splitSpecStep_byteIdx]
    simp [byteLen]
    omega

/-- The recursive embedding of the Rust loop agrees with the fold-style
specification scan, for every starting byte index and segment start. -/
theorem splitRangesAux_eq_spec (inclusive : Bool) (cs : List Char) (b s : Nat) :
    splitRangesAux inclusive cs b s =
      (cs.foldl (splitSpecStep inclusive) ([], b, s)).1 ++
        (if (cs.foldl (splitSpecStep inclusive) ([], b, s)).2.2 < b + byteLen cs then
          [⟨(cs.foldl (splitSpecStep inclusive) ([], b, s)).2.2, b + byteLen cs⟩]
        else []) := by
  induction cs generalizing b s with
  | nil => simp [splitRangesAux, byteLen]
  | cons c cs ih =>
    have hlen : b + byteLen (c :: cs) = (b + c.utf8Size) + byteLen cs := by
      simp [byteLen]
      omega
    simp only [List.foldl_cons]
    rw [splitSpec_foldl_acc inclusive cs (splitSpecStep inclusive ([], b, s) c), hlen]
    by_cases hd : isDelim c
    · cases inclusive with
      | true =>
        unfold splitRangesAux
        simp only [hd, if_true]
        rw [ih (b + c.utf8Size) (b + c.utf8Size)]
        simp [splitSpecStep, hd]
      | false =>
        unfold splitRangesAux
        by_cases hss : s < b
        · simp only [hd, hss, if_true, if_pos, Bool.false_eq_true, if_false]
          rw [ih (b + c.utf8Size) (b + c.utf8Size)]
          simp [splitSpecStep, hd, hss]
        · simp only [hd, hss, if_true, if_neg, Bool.false_eq_true, if_false]
          rw [ih (b + c.utf8Size) (b + c.utf8Size)]
          simp [splitSpecStep, hd, hss]
    · unfold splitRangesAux
      simp only [hd, Bool.false_eq_true, if_false]
      rw [ih (b + c.utf8Size) s]
      simp [splitSpecStep, hd]

theorem splitRangesAux_all_delim (cs : List Char) (b : Nat)
    (h : ∀ c ∈ cs, isDelim c = true) :
    (splitRangesAux true cs b b).length = cs.length := by
  induction cs generalizing b with
  | nil => simp [splitRangesAux]
  | cons c cs ih =>
    have hc : isDelim c = true := h c (List.mem_cons_self c cs)
    unfold splitRangesAux
    simp only [hc, if_true, List.length_cons]
    rw [ih (b + c.utf8Size) (fun x hx => h x (List.mem_cons_of_mem c hx))]

/-- C4: the splitter scans scalars left to right, emitting at each delimiter
the segment ending there (inclusive) or the pending content segment followed
by the delimiter segment (exclusive), with the trailing range emitted exactly
when non-empty; the empty string yields no ranges, a delimiter-only text in
inclusive mode yields one range per delimiter, and the exclusive split of
"Hello,World!" is the four stated ranges. -/
theorem claim_C4_split_string_ranges (text : List Char) (inclusive : Bool) :
    split_string_ranges text inclusive = splitSpec text inclusive
    ∧ split_string_ranges [] inclusive = []
    ∧ ((∀ c ∈ text, isDelim c = true) →
        (split_string_ranges text true).length = text.length)
    ∧ split_string_ranges ("Hello,World!".toList) false =
        [⟨0, 5⟩, ⟨5, 6⟩, ⟨6, 11⟩, ⟨11, 12⟩] := by
  refine ⟨?_, by simp [split_string_ranges, splitRangesAux, splitSpec, byteLen],
    fun h => splitRangesAux_all_delim text 0 h, by decide⟩
  unfold split_string_ranges splitSpec
  rw [splitRangesAux_eq_spec inclusive text 0 0]
  simp

theorem claim_C4_split_string_ranges_witness :
    (split_string_ranges (",,,".toList) true).length = (",,,".toList).length :=
  (claim_C4_split_string_ranges (",,,".toList) true).2.2.1 (by decide)

theorem byteLen_append (a b : List Char) :
    byteLen (a ++ b) = byteLen a + byteLen b := by
  induction a with
  | nil => simp [byteLen]
  | cons c cs ih => simp [byteLen, ih]; omega

theorem byteLen_take_le (s : List Char) (k : Nat) :
    byteLen (s.take k) ≤ byteLen s := by
  conv_rhs => rw [← List.take_append_drop k s]
  rw [byteLen_append]
  omega

theorem dropBytes_byteLen_take (s : List Char) (k : Nat) :
    dropBytes s (byteLen (s.take k)) = s.drop k := by
  induction s generalizing k with
  | nil => simp [dropBytes]
  | cons c cs ih =>
    cases k with
    | zero => simp [byteLen, dropBytes]
    | succ k =>
      have hpos := Char.utf8Size_pos c
      simp only [List.take_succ_cons, byteLen, dropBytes, List.drop_succ_cons]
      rw [if_neg (by omega)]
      rw [show c.utf8Size + byteLen (cs.take k) - c.utf8Size = byteLen (cs.take k) by omega]
      exact ih k

theorem takeBytes_byteLen_take (s : List Char) (k : Nat) (h : k ≤ s.length) :
    takeBytes s (byteLen (s.take k)) = s.take k := by
  induction s generalizing k with
  | nil => simp [takeBytes]
  | cons c cs ih =>
    cases k with
    | zero =>
      have hpos := Char.utf8Size_pos c
      simp only [List.take_zero, byteLen, takeBytes]
      rw [if_neg (by omega)]
    | succ k =>
      simp only [List.take_succ_cons, byteLen, takeBytes]
      rw [if_pos (by omega)]
      rw [show c.utf8Size + byteLen (cs.take k) - c.utf8Size = byteLen (cs.take k) by omega]
      rw [ih k (by simpa using h)]

theorem byteLen_take_split (s : List Char) (k m : Nat) (h : k ≤ m) :
    byteLen (s.take m) = byteLen (s.take k) + byteLen ((s.drop k).take (m - k)) := by
  conv_lhs => rw [show m = k + (m - k) by omega]
  rw [List.take_add, byteLen_append]

theorem byteLen_take_mono (s : List Char) (k m : Nat) (h : k ≤ m) :
    byteLen (s.take k) ≤ byteLen (s.take m) := by
  rw [byteLen_take_split s k m h]
  omega

theorem byteSlice_exact (text : List Char) (k m : Nat) (hk : k ≤ m)
    (hm : m ≤ text.length) :
    byteLen (byteSlice text ⟨byteLen (text.take k), byteLen (text.take m)⟩) =
      byteLen (text.take m) - byteLen (text.take k) := by
  unfold byteSlice
  simp only
  rw [dropBytes_byteLen_take]
  rw [byteLen_take_split text k m hk]
  rw [show byteLen (text.take k) + byteLen ((text.drop k).take (m - k)) -
      byteLen (text.take k) = byteLen ((text.drop k).take (m - k)) by omega]
  rw [takeBytes_byteLen_take (text.drop k) (m - k) (by simp; omega)]

theorem splitRangesAux_endpoints (inclusive : Bool) (cs : List Char) (b s : Nat) :
    ∀ r ∈ splitRangesAux inclusive cs b s,
      (r.start = s ∨ ∃ k ≤ cs.length, r.start = b + byteLen (cs.take k)) ∧
      (r.stop = s ∨ ∃ k ≤ cs.length, r.stop = b + byteLen (cs.take k)) := by
  induction cs generalizing b s with
  | nil =>
    intro r hr
    unfold splitRangesAux at hr
    by_cases h : s < b
    · simp [h] at hr
      subst hr
      refine ⟨Or.inl rfl, Or.inr ⟨0, by simp [byteLen]⟩⟩
    · simp [h] at hr
  | cons c cs ih =>
    intro r hr
    have hsucc : ∀ k, k ≤ cs.length →
        (b + c.utf8Size) + byteLen (cs.take k) = b + byteLen ((c :: cs).take (k + 1)) := by
      intro k _
      simp [byteLen]
      omega
    have hlift : ∀ n, (n = b + c.utf8Size ∨ ∃ k ≤ cs.length, n = (b + c.utf8Size) + byteLen (cs.take k)) →
        ∃ k ≤ (c :: cs).length, n = b + byteLen ((c :: cs).take k) := by
      rintro n (h | ⟨k, hk, h⟩)
      · exact ⟨1, by simp, by simp [byteLen]; omega⟩
      · exact ⟨k + 1, by simp; omega, by rw [h, hsucc k hk]⟩
    unfold splitRangesAux at hr
    by_cases hd : isDelim c
    · cases inclusive with
      | true =>
        simp only [hd, if_true] at hr
        rcases List.mem_cons.mp hr with h | h
        · subst h
          refine ⟨Or.inl rfl, Or.inr (hlift _ (Or.inl rfl))⟩
        · have := ih (b + c.utf8Size) (b + c.utf8Size) r h
          refine ⟨Or.inr ?_, Or.inr ?_⟩
          · rcases this.1 with h1 | ⟨k, hk, h1⟩
            · exact hlift _ (Or.inl h1)
            · exact hlift _ (Or.inr ⟨k, hk, h1⟩)
          · rcases this.2 with h1 | ⟨k, hk, h1⟩
            · exact hlift _ (Or.inl h1)
            · exact hlift _ (Or.inr ⟨k, hk, h1⟩)
      | false =>
        simp only [hd, if_true, Bool.false_eq_true, if_false] at hr
        have hbndb : ∃ k ≤ (c :: cs).length, b = b + byteLen ((c :: cs).take k) :=
          ⟨0, by simp, by simp [byteLen]⟩
        have htail : r ∈ splitRangesAux false cs (b + c.utf8Size) (b + c.utf8Size) →
            (∃ k ≤ (c :: cs).length, r.start = b + byteLen ((c :: cs).take k)) ∧
            (∃ k ≤ (c :: cs).length, r.stop = b + byteLen ((c :: cs).take k)) := by
          intro h
          have := ih (b + c.utf8Size) (b + c.utf8Size) r h
          constructor
          · rcases this.1 with h1 | ⟨k, hk, h1⟩
            · exact hlift _ (Or.inl h1)
            · exact hlift _ (Or.inr ⟨k, hk, h1⟩)
          · rcases this.2 with h1 | ⟨k, hk, h1⟩
            · exact hlift _ (Or.inl h1)
            · exact hlift _ (Or.inr ⟨k, hk, h1⟩)
        by_cases hss : s < b
        · simp only [hss, if_pos] at hr
          rcases List.mem_cons.mp hr with h | h
          · subst h
            exact ⟨Or.inl rfl, Or.inr hbndb⟩
          · rcases List.mem_cons.mp h with h2 | h2
            · subst h2
              exact ⟨Or.inr hbndb, Or.inr (hlift _ (Or.inl rfl))⟩
            · have := htail h2
              exact ⟨Or.inr this.1, Or.inr this.2⟩
        · simp only [hss, if_neg, if_false] at hr
          rcases List.mem_cons.mp hr with h | h
          · subst h
            exact ⟨Or.inr hbndb, Or.inr (hlift _ (Or.inl rfl))⟩
          · have := htail h
            exact ⟨Or.inr this.1, Or.inr this.2⟩
    · simp only [hd, Bool.false_eq_true, if_false] at hr
      have := ih (b + c.utf8Size) s r hr
      refine ⟨?_, ?_⟩
      · rcases this.1 with h1 | ⟨k, hk, h1⟩
        · exact Or.inl h1
        · exact Or.inr (hlift _ (Or.inr ⟨k, hk, h1⟩))
      · rcases this.2 with h1 | ⟨k, hk, h1⟩
        · exact Or.inl h1
        · exact Or.inr (hlift _ (Or.inr ⟨k, hk, h1⟩))

theorem splitRangesAux_sorted (inclusive : Bool) (cs : List Char) (b s : Nat)
    (hsb : s ≤ b) :
    (∀ r ∈ splitRangesAux inclusive cs b s, s ≤ r.start ∧ r.start < r.stop) ∧
    (splitRangesAux inclusive cs b s).Pairwise (fun r1 r2 => r1.stop ≤ r2.start) := by
  induction cs generalizing b s with
  | nil =>
    unfold splitRangesAux
    by_cases h : s < b
    · simp [h]
    · simp [h]
  | cons c cs ih =>
    have hpos := Char.utf8Size_pos c
    unfold splitRangesAux
    by_cases hd : isDelim c
    · cases inclusive with
      | true =>
        simp only [hd, if_true]
        have htail := ih (b + c.utf8Size) (b + c.utf8Size) (le_refl _)
        constructor
        · intro r hr
          rcases List.mem_cons.mp hr with h | h
          · subst h
            exact ⟨le_refl s, by simp; omega⟩
          · have := htail.1 r h
            exact ⟨by omega, this.2⟩
        · rw [List.pairwise_cons]
          exact ⟨fun r hr => by have := (htail.1 r hr).1; simp; omega, htail.2⟩
      | false =>
        simp only [hd, if_true, Bool.false_eq_true, if_false]
        have htail := ih (b + c.utf8Size) (b + c.utf8Size) (le_refl _)
        by_cases hss : s < b
        · simp only [hss, if_pos]
          constructor
          · intro r hr
            rcases List.mem_cons.mp hr with h | h
            · subst h
              exact ⟨le_refl s, hss⟩
            · rcases List.mem_cons.mp h with h2 | h2
              · subst h2
                exact ⟨by show s ≤ b; omega, by show b < b + c.utf8Size; omega⟩
              · have := htail.1 r h2
                exact ⟨by omega, this.2⟩
          · rw [List.pairwise_cons, List.pairwise_cons]
            refine ⟨?_, ?_, htail.2⟩
            · intro r hr
              rcases List.mem_cons.mp hr with h | h
              · subst h
                exact le_refl b
              · have := (htail.1 r h).1
                simp
                omega
            · intro r hr
              have := (htail.1 r hr).1
              simp
              omega
        · simp only [hss, if_neg, if_false]
          constructor
          · intro r hr
            rcases List.mem_cons.mp hr with h | h
            · subst h
              exact ⟨hsb, by simp; omega⟩
            · have := htail.1 r h
              exact ⟨by omega, this.2⟩
          · rw [List.pairwise_cons]
            exact ⟨fun r hr => by have := (htail.1 r hr).1; simp; omega, htail.2⟩
    · simp only [hd, Bool.false_eq_true, if_false]
      have htail := ih (b + c.utf8Size) s (by omega)
      exact htail

/-- C5: every range produced by the splitter is non-empty, lies within the
text, has both endpoints on UTF-8 scalar boundaries, the ranges are pairwise
non-overlapping in order, and slicing a produced range out of the text is
well defined, yielding exactly stop minus start bytes; hence the byte
slicing performed by the conversion pipeline never goes out of bounds and
the conversion operators, being compositions of these total maps, are total
on valid input. -/
theorem claim_C5_range_safety (text : List Char) (inclusive : Bool) :
    (∀ r ∈ split_string_ranges text inclusive,
      r.start < r.stop ∧ r.stop ≤ byteLen text ∧
      isBoundaryAt text r.start ∧ isBoundaryAt text r.stop ∧
      byteLen (byteSlice text r) = r.stop - r.start) ∧
    (split_string_ranges text inclusive).Pairwise (fun r1 r2 => r1.stop ≤ r2.start) := by
  have hend := splitRangesAux_endpoints inclusive text 0 0
  have hsort := splitRangesAux_sorted inclusive text 0 0 (le_refl 0)
  constructor
  · intro r hr
    have h1 := (hsort.1 r hr).2
    have h2 := hend r hr
    have hstart : ∃ k ≤ text.length, r.start = byteLen (text.take k) := by
      rcases h2.1 with h | ⟨k, hk, h⟩
      · exact ⟨0, by simp, by simpa [byteLen] using h⟩
      · exact ⟨k, hk, by simpa using h⟩
    have hstop : ∃ k ≤ text.length, r.stop = byteLen (text.take k) := by
      rcases h2.2 with h | ⟨k, hk, h⟩
      · exact ⟨0, by simp, by simpa [byteLen] using h⟩
      · exact ⟨k, hk, by simpa using h⟩
    obtain ⟨k, hk, hks⟩ := hstart
    obtain ⟨m, hm, hms⟩ := hstop
    have hkm : k ≤ m := by
      by_contra hcon
      push_neg at hcon
      have := byteLen_take_mono text m k (by omega)
      omega
    refine ⟨h1, ?_, ⟨k, hk, hks⟩, ⟨m, hm, hms⟩, ?_⟩
    · rw [hms]
      exact byteLen_take_le text m
    · have hreq : r = ⟨byteLen (text.take k), byteLen (text.take m)⟩ := by
        cases r
        simp_all
      rw [hreq]
      exact byteSlice_exact text k m hkm hm
  · exact hsort.2

theorem claim_C5_range_safety_witness :
    (⟨0, 2⟩ : SRange).start < (⟨0, 2⟩ : SRange).stop ∧
    (⟨0, 2⟩ : SRange).stop ≤ byteLen ("Hi!".toList) ∧
    isBoundaryAt ("Hi!".toList) (⟨0, 2⟩ : SRange).start ∧
    isBoundaryAt ("Hi!".toList) (⟨0, 2⟩ : SRange).stop ∧
    byteLen (byteSlice ("Hi!".toList) ⟨0, 2⟩) =
      (⟨0, 2⟩ : SRange).stop - (⟨0, 2⟩ : SRange).start :=
  (claim_C5_range_safety ("Hi!".toList) false).1 ⟨0, 2⟩ (by decide)

theorem firstMatch_at_index (dictionaries : List Dict) (t : List Char)
    (i : Nat) (d : Dict) (v : List Char)
    (hi : dictionaries.get? i = some d) (hv : dictGet d t = some v)
    (hmin : ∀ j dj, j < i → dictionaries.get? j = some dj → dictGet dj t = none) :
    firstMatch dictionaries t = some v := by
  induction dictionaries generalizing i with
  | nil => simp at hi
  | cons d0 rest ih =>
    cases i with
    | zero =>
      simp at hi
      subst hi
      simp [firstMatch, hv]
    | succ i =>
      have h0 : dictGet d0 t = none :=
        hmin 0 d0 (Nat.succ_pos i) (by simp)
      simp only [firstMatch, h0]
      exact ih i (by simpa using hi)
        (fun j dj hj hjg => hmin (j + 1) dj (by omega) (by simpa using hjg))

theorem firstMatch_none (dictionaries : List Dict) (t : List Char)
    (h : ∀ d ∈ dictionaries, dictGet d t = none) :
    firstMatch dictionaries t = none := by
  induction dictionaries with
  | nil => rfl
  | cons d0 rest ih =>
    have h0 := h d0 (List.mem_cons_self d0 rest)
    simp only [firstMatch, h0]
    exact ih (fun d hd => h d (List.mem_cons_of_mem d0 hd))

/-- C1: for a non-empty token that is not a single-scalar delimiter, the
emission is the value of the smallest-index dictionary mapping the whole
token, independent of any character-level entries; and when no dictionary
maps the token, the emission is the per-scalar fallback that replaces each
scalar with the first hit in the same ordered list, keeping unmapped
scalars. -/
theorem claim_C1_phrase_priority (dictionaries : List Dict) (t : List Char)
    (hne : t ≠ []) (hnd : isSingleDelim t = false) :
    (∀ i d v, dictionaries.get? i = some d → dictGet d t = some v →
      (∀ j dj, j < i → dictionaries.get? j = some dj → dictGet dj t = none) →
      processToken dictionaries t = v) ∧
    ((∀ d ∈ dictionaries, dictGet d t = none) →
      processToken dictionaries t =
        (t.map (charReplace dictionaries)).flatten) := by
  constructor
  · intro i d v hi hv hmin
    have := firstMatch_at_index dictionaries t i d v hi hv hmin
    simp [processToken, hne, hnd, this]
  · intro h
    have := firstMatch_none dictionaries t h
    simp [processToken, hne, hnd, this, convert_by_char]

theorem claim_C1_phrase_priority_witness :
    processToken [[(['a'], ['b'])], [(['a'], ['c'])]] ['a'] = ['b'] :=
  (claim_C1_phrase_priority [[(['a'], ['b'])], [(['a'], ['c'])]] ['a']
      (by decide) (by decide)).1
    0 [(['a'], ['b'])] ['b'] rfl rfl
    (fun j dj hj _ => absurd hj (Nat.not_lt_zero j))

theorem foldl_append_eq_flatten {α : Type} (f : α → List Char) (l : List α) :
    l.foldl (fun acc x => acc ++ f x) [] = (l.map f).flatten := by
  suffices h : ∀ acc : List Char, l.foldl (fun acc x => acc ++ f x) acc = acc ++ (l.map f).flatten by
    simpa using h []
  induction l with
  | nil => simp
  | cons x xs ih =>
    intro acc
    simp [ih, List.append_assoc]

theorem flatten_map_flatten_of_partition (f : SRange → List Char) (blocks : List (List SRange)) :
    (blocks.map (fun blk => (blk.map f).flatten)).flatten = (blocks.flatten.map f).flatten := by
  induction blocks with
  | nil => simp
  | cons blk rest ih => simp [ih]

/-- C2: for every input, dictionary list and hmm flag, the ordered parallel
map-reduce over any contiguous partition of the ranges produces exactly the
serial left-to-right concatenation, so the output of phrases_cut_convert
does not depend on whether the parallel threshold is reached. -/
theorem claim_C2_parallel_serial (cut : Segmenter) (input : List Char)
    (dictionaries : List Dict) (hmm : Bool) (blocks : List (List SRange))
    (hb : blocks.flatten = split_string_ranges input true) :
    phrases_cut_convert_par cut input dictionaries hmm blocks =
      phrases_cut_convert cut input dictionaries hmm := by
  unfold phrases_cut_convert_par phrases_cut_convert
  rw [foldl_append_eq_flatten (fun r => process_range cut input dictionaries hmm r)
    (split_string_ranges input true)]
  rw [show (fun (a b : List Char) => a ++ b) = (fun acc x => acc ++ id x) by rfl]
  rw [foldl_append_eq_flatten]
  simp only [List.map_id_fun, id]
  rw [show (blocks.map (fun blk =>
      blk.foldl (fun out r => out ++ process_range cut input dictionaries hmm r) [])) =
      blocks.map (fun blk =>
        ((blk.map (process_range cut input dictionaries hmm)).flatten)) by
    refine List.map_congr_left ?_
    intro blk _
    exact foldl_append_eq_flatten (process_range cut input dictionaries hmm) blk]
  rw [flatten_map_flatten_of_partition, hb]

theorem claim_C2_parallel_serial_witness :
    phrases_cut_convert_par (fun chunk _ => [chunk]) ("a,b".toList) [] false
        [[⟨0, 2⟩], [⟨2, 3⟩]] =
      phrases_cut_convert (fun chunk _ => [chunk]) ("a,b".toList) [] false :=
  claim_C2_parallel_serial (fun chunk _ => [chunk]) ("a,b".toList) [] false
    [[⟨0, 2⟩], [⟨2, 3⟩]] (by decide)

/-- C3: every named configuration of the router applies exactly the pass
stacks of the section 4.9 table in order, each pass invoking the
phrase-first converter with hmm true and feeding the output of pass n into
pass n plus one, and punctuation mapping runs only for the configs marked
yes, in the marked mode; in particular tw2sp is the three listed passes
followed, when requested, by Traditional-to-Simplified punctuation mapping,
and hk2s maps its punctuation under mode t. -/
theorem claim_C3_router_table (cut : Segmenter) (d : Dictionary) (x : List Char) (p : Bool) :
    (s2t cut d x p =
      (if p then convert_punctuation
          (applyPasses cut [[d.st_phrases, d.st_characters]] x) ("s".toList)
        else applyPasses cut [[d.st_phrases, d.st_characters]] x))
    ∧ (t2s cut d x p =
      (if p then convert_punctuation
          (applyPasses cut [[d.ts_phrases, d.ts_characters]] x) ("t".toList)
        else applyPasses cut [[d.ts_phrases, d.ts_characters]] x))
    ∧ (s2tw cut d x p =
      (if p then convert_punctuation
          (applyPasses cut [[d.st_phrases, d.st_characters], [d.tw_variants]] x) ("s".toList)
        else applyPasses cut [[d.st_phrases, d.st_characters], [d.tw_variants]] x))
    ∧ (tw2s cut d x p =
      (if p then convert_punctuation
          (applyPasses cut [[d.tw_variants_rev, d.tw_variants_rev_phrases],
            [d.ts_phrases, d.ts_characters]] x) ("t".toList)
        else applyPasses cut [[d.tw_variants_rev, d.tw_variants_rev_phrases],
          [d.ts_phrases, d.ts_characters]] x))
    ∧ (s2twp cut d x p =
      (if p then convert_punctuation
          (applyPasses cut [[d.st_phrases, d.st_characters], [d.tw_phrases],
            [d.tw_variants]] x) ("s".toList)
        else applyPasses cut [[d.st_phrases, d.st_characters], [d.tw_phrases],
          [d.tw_variants]] x))
    ∧ (tw2sp cut d x p =
      (if p then convert_punctuation
          (applyPasses cut [[d.tw_variants_rev, d.tw_variants_rev_phrases],
            [d.tw_phrases_rev], [d.ts_phrases, d.ts_characters]] x) ("t".toList)
        else applyPasses cut [[d.tw_variants_rev, d.tw_variants_rev_phrases],
          [d.tw_phrases_rev], [d.ts_phrases, d.ts_characters]] x))
    ∧ (s2hk cut d x p =
      (if p then convert_punctuation
          (applyPasses cut [[d.st_phrases, d.st_characters], [d.hk_variants]] x) ("s".toList)
        else applyPasses cut [[d.st_phrases, d.st_characters], [d.hk_variants]] x))
    ∧ (hk2s cut d x p =
      (if p then convert_punctuation
          (applyPasses cut [[d.hk_variants_rev_phrases, d.hk_variants_rev],
            [d.ts_phrases, d.ts_characters]] x) ("t".toList)
        else applyPasses cut [[d.hk_variants_rev_phrases, d.hk_variants_rev],
          [d.ts_phrases, d.ts_characters]] x))
    ∧ (t2tw cut d x = applyPasses cut [[d.tw_variants]] x)
    ∧ (t2twp cut d x = applyPasses cut [[d.tw_phrases], [d.tw_variants]] x)
    ∧ (tw2t cut d x =
      applyPasses cut [[d.tw_variants_rev, d.tw_variants_rev_phrases]] x)
    ∧ (tw2tp cut d x =
      applyPasses cut [[d.tw_variants_rev, d.tw_variants_rev_phrases],
        [d.tw_phrases_rev]] x)
    ∧ (t2hk cut d x = applyPasses cut [[d.hk_variants]] x)
    ∧ (hk2t cut d x =
      applyPasses cut [[d.hk_variants_rev_phrases, d.hk_variants_rev]] x)
    ∧ (t2jp cut d x = applyPasses cut [[d.jp_variants]] x)
    ∧ (jp2t cut d x =
      applyPasses cut [[d.jps_phrases, d.jps_characters, d.jp_variants_rev]] x) :=
  ⟨rfl, rfl, rfl, rfl, rfl, rfl, rfl, rfl, rfl, rfl, rfl, rfl, rfl, rfl, rfl, rfl⟩

theorem charMapGet_s2t_eq (c : Char) :
    (charMapGet s2tPairs c).getD c = punctSpecChar true c := by
  by_cases h1 : c = Char.ofNat 0x201c
  · subst h1; decide
  by_cases h2 : c = Char.ofNat 0x201d
  · subst h2; decide
  by_cases h3 : c = Char.ofNat 0x2018
  · subst h3; decide
  by_cases h4 : c = Char.ofNat 0x2019
  · subst h4; decide
  simp [charMapGet, s2tPairs, punctSpecChar, h1, h2, h3, h4,
    Ne.symm h1, Ne.symm h2, Ne.symm h3, Ne.symm h4]

theorem charMapGet_t2s_eq (c : Char) :
    (charMapGet t2sPairs c).getD c = punctSpecChar false c := by
  by_cases h1 : c = Char.ofNat 0x300c
  · subst h1; decide
  by_cases h2 : c = Char.ofNat 0x300d
  · subst h2; decide
  by_cases h3 : c = Char.ofNat 0x300e
  · subst h3; decide
  by_cases h4 : c = Char.ofNat 0x300f
  · subst h4; decide
  simp [charMapGet, t2sPairs, punctSpecChar, h1, h2, h3, h4,
    Ne.symm h1, Ne.symm h2, Ne.symm h3, Ne.symm h4]

theorem punctSpecChar_not_source (dir : Bool) (c : Char)
    (h : c ∉ punctSources dir) : punctSpecChar dir c = c := by
  cases dir
  · simp [punctSources] at h
    simp [punctSpecChar, h.1, h.2.1, h.2.2.1, h.2.2.2]
  · simp [punctSources] at h
    simp [punctSpecChar, h.1, h.2.1, h.2.2.1, h.2.2.2]

/-- C9: convert_punctuation substitutes exactly the four paired quotation
codepoints of the direction selected by the mode string, applying the
Simplified-to-Traditional table when the mode starts with the letter s and
the reverse table otherwise, while every scalar that is not one of the four
source codepoints appears unchanged at the same position in the output. -/
theorem claim_C9_convert_punctuation (text m : List Char) :
    convert_punctuation text m = text.map (punctSpecChar (startsWithS m)) ∧
    (convert_punctuation text m).length = text.length ∧
    (∀ i, i < text.length →
      text.getD i (Char.ofNat 0) ∉ punctSources (startsWithS m) →
      (convert_punctuation text m).getD i (Char.ofNat 0) =
        text.getD i (Char.ofNat 0)) := by
  have hmap : convert_punctuation text m = text.map (punctSpecChar (startsWithS m)) := by
    unfold convert_punctuation
    cases hm : startsWithS m
    · simp only [Bool.false_eq_true, if_false]
      exact List.map_congr_left (fun c _ => charMapGet_t2s_eq c)
    · simp only [if_true]
      exact List.map_congr_left (fun c _ => charMapGet_s2t_eq c)
  refine ⟨hmap, by rw [hmap]; simp, ?_⟩
  intro i hi hns
  have hi2 : i < (text.map (punctSpecChar (startsWithS m))).length := by simpa
  rw [hmap, List.getD_eq_getElem _ _ hi2, List.getElem_map,
    List.getD_eq_getElem _ _ hi]
  rw [List.getD_eq_getElem _ _ hi] at hns
  exact punctSpecChar_not_source _ _ hns

theorem claim_C9_convert_punctuation_witness :
    (convert_punctuation ("ab".toList) ("t".toList)).getD 0 (Char.ofNat 0) =
      ("ab".toList).getD 0 (Char.ofNat 0) :=
  (claim_C9_convert_punctuation ("ab".toList) ("t".toList)).2.2 0 (by decide) (by decide)

theorem takeBytes_byteLen_le (s : List Char) (n : Nat) :
    byteLen (takeBytes s n) ≤ n := by
  induction s generalizing n with
  | nil => simp [takeBytes, byteLen]
  | cons c cs ih =>
    unfold takeBytes
    by_cases h : c.utf8Size ≤ n
    · simp only [h, if_pos, byteLen]
      have := ih (n - c.utf8Size)
      omega
    · simp only [h, if_neg, byteLen]
      omega

theorem takeBytes_take_shape (s : List Char) (n : Nat) :
    ∃ j, j ≤ s.length ∧ takeBytes s n = s.take j ∧
      (j = s.length ∨ n < byteLen (s.take (j + 1))) := by
  induction s generalizing n with
  | nil => exact ⟨0, by simp [takeBytes]⟩
  | cons c cs ih =>
    by_cases h : c.utf8Size ≤ n
    · obtain ⟨j, hj, heq, hmax⟩ := ih (n - c.utf8Size)
      refine ⟨j + 1, by simpa using hj, ?_, ?_⟩
      · simp [takeBytes, h, heq]
      · rcases hmax with hm | hm
        · exact Or.inl (by simpa using hm)
        · refine Or.inr ?_
          simp only [List.take_succ_cons, byteLen]
          omega
    · refine ⟨0, by simp, by simp [takeBytes, h], Or.inr ?_⟩
      simp only [List.take_succ_cons, List.take_zero, byteLen]
      omega

theorem takeBytes_eq_truncToBytes (s : List Char) (n : Nat) :
    takeBytes s n = truncToBytes s n := by
  obtain ⟨j, hj, heq, hmax⟩ := takeBytes_take_shape s n
  have hfind : Nat.findGreatest (fun k => byteLen (s.take k) ≤ n) s.length = j := by
    rw [Nat.findGreatest_eq_iff]
    refine ⟨hj, fun _ => ?_, ?_⟩
    · rw [← heq]
      exact takeBytes_byteLen_le s n
    · intro m hm hmle
      rcases hmax with hcase | hcase
      · omega
      · intro hP
        have hmono := byteLen_take_mono s (j + 1) m (by omega)
        omega
  rw [truncToBytes, hfind, heq]

theorem takeBytes_of_all (s : List Char) (n : Nat) (h : byteLen s ≤ n) :
    takeBytes s n = s := by
  induction s generalizing n with
  | nil => simp [takeBytes]
  | cons c cs ih =>
    unfold byteLen at h
    unfold takeBytes
    rw [if_pos (by omega)]
    rw [ih (n - c.utf8Size) (by omega)]

theorem takeBytes_find_max (s : List Char) (n : Nat) :
    takeBytes s (find_max_utf8_length s n) = takeBytes s n := by
  unfold find_max_utf8_length
  by_cases h : byteLen s ≤ n
  · rw [if_pos h, takeBytes_of_all s (byteLen s) (le_refl _), takeBytes_of_all s n h]
  · rw [if_neg h]
    obtain ⟨j, hj, heq, _⟩ := takeBytes_take_shape s n
    rw [heq, takeBytes_byteLen_take s j hj]

/-- C7: zho_check returns 0 on the empty string, and otherwise computes on
the doubly truncated and stripped prefix t the answer 1 when t differs from
its character-level Traditional-to-Simplified conversion, else 2 when t
differs from its Simplified-to-Traditional conversion, else 0; this is the
step list of the specification verbatim. -/
theorem claim_C7_zho_check (d : Dictionary) (input : List Char) :
    zho_check d input = zhoCheckSpec d input ∧ zho_check d [] = 0 := by
  refine ⟨?_, rfl⟩
  unfold zho_check zhoCheckSpec
  by_cases he : input = []
  · rw [if_pos he, if_pos he]
  · rw [if_neg he, if_neg he]
    simp only [fun s n => (takeBytes_find_max s n).trans (takeBytes_eq_truncToBytes s n)]
    rfl

theorem and_shiftLeft_ne_zero (x i : Nat) :
    ((x &&& (1 <<< i)) != 0) = x.testBit i := by
  rw [Nat.shiftLeft_eq, one_mul, Nat.and_two_pow]
  cases h : x.testBit i
  · simp
  · simp [(pow_pos (show (0 : Nat) < 2 by omega) i).ne']

theorem mapInsert_len_iff (m : List (List Char × List Char))
    (key val : List Char) (n : Nat) :
    (∃ p ∈ mapInsert m key val, p.1.length = n) ↔
      key.length = n ∨ ∃ p ∈ m, p.1.length = n := by
  unfold mapInsert
  constructor
  · rintro ⟨p, hp, hlen⟩
    rcases List.mem_cons.mp hp with h | h
    · subst h
      exact Or.inl hlen
    · exact Or.inr ⟨p, (List.mem_filter.mp h).1, hlen⟩
  · rintro (h | ⟨p, hp, hlen⟩)
    · exact ⟨(key, val), List.mem_cons_self _ _, h⟩
    · by_cases hk : p.1 = key
      · refine ⟨(key, val), List.mem_cons_self _ _, ?_⟩
        rw [← hk]
        exact hlen
      · exact ⟨p, List.mem_cons_of_mem _
          (List.mem_filter.mpr ⟨hp, by simpa using hk⟩), hlen⟩

theorem setInsert_contains (l : List Nat) (x n : Nat) :
    ((setInsert l x).contains n = true) ↔ (x = n ∨ l.contains n = true) := by
  have hb : ∀ (m : List Nat) (k : Nat), (m.contains k = true) ↔ k ∈ m := by
    intro m k
    simp
  rw [hb, hb]
  unfold setInsert
  by_cases hx : x ∈ l
  · rw [if_pos ((hb l x).mpr hx)]
    constructor
    · exact Or.inr
    · rintro (he | hc)
      · subst he
        exact hx
      · exact hc
  · rw [if_neg (fun hc => hx ((hb l x).mp hc))]
    rw [List.mem_cons]
    constructor
    · rintro (he | hc)
      · exact Or.inl he.symm
      · exact Or.inr hc
    · rintro (he | hc)
      · exact Or.inl he.symm
      · exact Or.inr hc

theorem insert_with_len_consistent (d : DictMap) (key val : List Char)
    (hd : DictMapConsistent d) :
    DictMapConsistent (d.insert_with_len key val key.length) := by
  intro n hn
  have hmask : (d.insert_with_len key val key.length).key_len_mask =
      (if key.length ≠ 0 then
        (if key.length ≤ 64 then d.key_len_mask ||| (1 <<< (key.length - 1))
          else d.key_len_mask)
      else d.key_len_mask) := by
    unfold DictMap.insert_with_len
    by_cases h : key.length ≠ 0 <;> simp [h]
  have hlong : (d.insert_with_len key val key.length).long_lengths =
      (if key.length ≠ 0 then
        (if key.length ≤ 64 then d.long_lengths
          else setInsert d.long_lengths key.length)
      else d.long_lengths) := by
    unfold DictMap.insert_with_len
    by_cases h : key.length ≠ 0 <;> simp [h]
  have hmap : (d.insert_with_len key val key.length).map =
      mapInsert d.map key val := by
    unfold DictMap.insert_with_len
    by_cases h : key.length ≠ 0 <;> simp [h]
  have hinv := hd n hn
  unfold DictMap.has_key_len at hinv
  rw [if_neg (show ¬ n = 0 by omega)] at hinv
  unfold DictMap.has_key_len
  rw [hmap, mapInsert_len_iff, hmask, hlong]
  rw [if_neg (show ¬ n = 0 by omega)]
  by_cases hlen0 : key.length = 0
  · rw [if_neg (show ¬ key.length ≠ 0 from fun hc => hc hlen0),
      if_neg (show ¬ key.length ≠ 0 from fun hc => hc hlen0)]
    by_cases h64 : n ≤ 64
    · rw [if_pos h64]
      rw [if_pos h64] at hinv
      rw [hinv]
      constructor
      · exact Or.inr
      · rintro (h | h)
        · omega
        · exact h
    · rw [if_neg h64]
      rw [if_neg h64] at hinv
      rw [hinv]
      constructor
      · exact Or.inr
      · rintro (h | h)
        · omega
        · exact h
  · rw [if_pos (show key.length ≠ 0 from hlen0),
      if_pos (show key.length ≠ 0 from hlen0)]
    by_cases h64 : n ≤ 64
    · rw [if_pos h64]
      rw [if_pos h64] at hinv
      by_cases hk64 : key.length ≤ 64
      · rw [if_pos hk64]
        rw [and_shiftLeft_ne_zero] at hinv
        rw [and_shiftLeft_ne_zero, Nat.testBit_or,
          show (1 : Nat) <<< (key.length - 1) = 2 ^ (key.length - 1) by
            rw [Nat.shiftLeft_eq, one_mul],
          Nat.testBit_two_pow]
        simp only [Bool.or_eq_true, decide_eq_true_eq]
        rw [hinv]
        constructor
        · rintro (h | h)
          · exact Or.inr h
          · exact Or.inl (by omega)
        · rintro (h | h)
          · exact Or.inr (by omega)
          · exact Or.inl h
      · rw [if_neg hk64, hinv]
        constructor
        · exact Or.inr
        · rintro (h | h)
          · omega
          · exact h
    · rw [if_neg h64]
      rw [if_neg h64] at hinv
      by_cases hk64 : key.length ≤ 64
      · rw [if_pos hk64, hinv]
        constructor
        · exact Or.inr
        · rintro (h | h)
          · omega
          · exact h
      · rw [if_neg hk64, setInsert_contains, hinv]

theorem buildDictMap_consistent (inserts : List (List Char × List Char)) :
    DictMapConsistent (buildDictMap inserts) := by
  suffices h : ∀ d, DictMapConsistent d →
      DictMapConsistent (inserts.foldl
        (fun d kv => d.insert_with_len kv.1 kv.2 kv.1.length) d) by
    refine h DictMap.empty ?_
    intro n hn
    unfold DictMap.has_key_len DictMap.empty
    rw [if_neg (by omega)]
    by_cases h64 : n ≤ 64 <;> simp [h64]
  induction inserts with
  | nil => exact fun d hd => hd
  | cons kv rest ih =>
    intro d hd
    simp only [List.foldl_cons]
    exact ih _ (insert_with_len_consistent d kv.1 kv.2 hd)

/-- C6: for every DictMap built by insert_with_len calls whose declared
length equals the scalar count of the key, and every positive length n, the
oracle has_key_len n answers exactly whether some key of scalar length n is
present, through the bitmask for n up to 64 and through the long-length set
beyond; and has_key_len 0 is always false. -/
theorem claim_C6_dictmap_consistency (inserts : List (List Char × List Char))
    (n : Nat) (hn : 1 ≤ n) :
    ((buildDictMap inserts).has_key_len n = true ↔
      ∃ p ∈ (buildDictMap inserts).map, p.1.length = n) ∧
    (buildDictMap inserts).has_key_len 0 = false :=
  ⟨buildDictMap_consistent inserts n hn, rfl⟩

theorem claim_C6_dictmap_consistency_witness :
    ((buildDictMap [(("ab".toList), ("cd".toList))]).has_key_len 2 = true ↔
      ∃ p ∈ (buildDictMap [(("ab".toList), ("cd".toList))]).map, p.1.length = 2) ∧
    (buildDictMap [(("ab".toList), ("cd".toList))]).has_key_len 0 = false :=
  claim_C6_dictmap_consistency [(("ab".toList), ("cd".toList))] 2 (by decide)

end OpenccJieba
